import Mathlib

/-!
Verification of the PromQL evaluation core of the `query-api` repository.

The Rust source under `src/promql/` is shallowly embedded: `f64` sample
values and timestamps are modelled by `ℚ` (all computations the claims
touch are exact rational arithmetic on the fixtures involved), label sets
(`BTreeMap<String, String>`) are modelled by association lists of
`String × String` pairs, and fallible computations return `Option`.
Where the code can produce IEEE special values (NaN, ±∞) — binary-operator
division by zero and histogram-bucket interpolation — an explicit extended
value type `FVal` models them.  `f64::sqrt` (reachable only through
`stddev_over_time`, whose claims concern the `none`/`some` structure only)
is modelled by the rational square-root approximation `Rat.sqrt`.
-/

namespace QueryApi

-- ═══════════════════════════════════════════════════════════════════
-- Definitions: the shallow embedding of src/promql
-- ═══════════════════════════════════════════════════════════════════

/-- A sample: `(timestamp_seconds, value)`, from `types.rs` `TimeSeries.samples`. -/
abbrev Sample := ℚ × ℚ

/-- Label sets: `BTreeMap<String, String>` modelled as an association list.
Series built by the store layer keep their pair lists sorted by key, so list
equality coincides with map equality. -/
abbrev Labels := List (String × String)

/-- A time series: a label set plus ordered samples (`types.rs`, `TimeSeries`). -/
structure TimeSeries where
  labels  : Labels
  samples : List Sample
deriving DecidableEq

/-- The closed `RangeFunc` vocabulary from `types.rs`. -/
inductive RangeFunc
  | Rate | Irate | Increase
  | SumOverTime | AvgOverTime | MinOverTime | MaxOverTime | CountOverTime
  | StddevOverTime | StdvarOverTime | QuantileOverTime
  | LastOverTime | FirstOverTime
  | Delta | Idelta
  | Deriv | PredictLinear
  | Changes | Resets
  | AbsentOverTime | PresentOverTime
deriving DecidableEq

/-- The machine epsilon `f64::EPSILON = 2⁻⁵²` used by `compute_changes` and
`linear_regression_slope`. -/
def f64_epsilon : ℚ := 1 / 2 ^ (52 : ℕ)

/-- Sum of the per-adjacent-pair increases in `compute_rate`'s loop
(`for i in 1..len`): `v[i]-v[i-1]` when non-negative, else `v[i]`. -/
def rate_increase_loop (samples : List Sample) : ℚ :=
  (samples.zip samples.tail).foldl
    (fun acc p =>
      let delta := p.2.2 - p.1.2
      if 0 ≤ delta then acc + delta else acc + p.2.2)
    0

/-- Model of `compute_rate` from `compute.rs:43`. -/
def compute_rate (samples : List Sample) : Option ℚ :=
  if samples.length < 2 then none
  else
    let fst := samples.headD (0, 0)
    let lst := samples.getLastD (0, 0)
    let dt := lst.1 - fst.1
    if dt ≤ 0 then none
    else some (rate_increase_loop samples / dt)

/-- Model of `compute_irate` from `compute.rs:69`: rate of the last two samples. -/
def compute_irate (samples : List Sample) : Option ℚ :=
  if samples.length < 2 then none
  else
    let prev := (samples.drop (samples.length - 2)).headD (0, 0)
    let lst := samples.getLastD (0, 0)
    let dt := lst.1 - prev.1
    if dt ≤ 0 then none
    else
      let delta := if prev.2 ≤ lst.2 then lst.2 - prev.2 else lst.2
      some (delta / dt)

/-- Model of `compute_increase` from `compute.rs:88`: `rate * dt`. -/
def compute_increase (samples : List Sample) : Option ℚ :=
  (compute_rate samples).map fun r =>
    r * ((samples.getLastD (0, 0)).1 - (samples.headD (0, 0)).1)

/-- Model of `compute_sum_over_time` from `compute.rs:96`. -/
def compute_sum_over_time (samples : List Sample) : Option ℚ :=
  if samples = [] then none
  else some ((samples.map Prod.snd).sum)

/-- Model of `compute_avg_over_time` from `compute.rs:104`. -/
def compute_avg_over_time (samples : List Sample) : Option ℚ :=
  if samples = [] then none
  else some ((samples.map Prod.snd).sum / samples.length)

/-- Model of `compute_min_over_time` from `compute.rs:113` (`reduce(f64::min)`). -/
def compute_min_over_time (samples : List Sample) : Option ℚ :=
  match samples.map Prod.snd with
  | [] => none
  | v :: vs => some (vs.foldl min v)

/-- Model of `compute_max_over_time` from `compute.rs:118` (`reduce(f64::max)`). -/
def compute_max_over_time (samples : List Sample) : Option ℚ :=
  match samples.map Prod.snd with
  | [] => none
  | v :: vs => some (vs.foldl max v)

/-- Model of `compute_count_over_time` from `compute.rs:123`. -/
def compute_count_over_time (samples : List Sample) : Option ℚ :=
  if samples = [] then none
  else some (samples.length : ℚ)

/-- Model of `compute_stdvar_over_time` from `compute.rs:136` (population variance). -/
def compute_stdvar_over_time (samples : List Sample) : Option ℚ :=
  if samples = [] then none
  else
    let n : ℚ := samples.length
    let mean := (samples.map Prod.snd).sum / n
    some (((samples.map (fun s => (s.2 - mean) ^ 2)).sum) / n)

/-- Model of `compute_stddev_over_time` from `compute.rs:131` (`stdvar.sqrt()`;
`f64::sqrt` modelled by `Rat.sqrt`, see the file comment). -/
def compute_stddev_over_time (samples : List Sample) : Option ℚ :=
  (compute_stdvar_over_time samples).map Rat.sqrt

/-- Model of `quantile_sorted` from `compute.rs:157`.  The source returns `f64::NAN`
on an empty slice; `ℚ` has no NaN, so that (unreached by every caller, which
all guard non-emptiness) branch returns `0`. -/
def quantile_sorted (sorted : List ℚ) (q : ℚ) : ℚ :=
  if sorted = [] then 0
  else if sorted.length = 1 then sorted.headD 0
  else
    let q := max 0 (min q 1)
    let rank := q * ((sorted.length : ℚ) - 1)
    let lower := ⌊rank⌋.toNat
    let upper := ⌈rank⌉.toNat
    if lower = upper ∨ sorted.length ≤ lower + 1 then
      sorted.getD (min lower (sorted.length - 1)) 0
    else
      let fraction := rank - lower
      sorted.getD lower 0 + (sorted.getD upper 0 - sorted.getD lower 0) * fraction

/-- Ascending sort used throughout.  Rust's `sort_by` with the total
comparator `partial_cmp` on finite values is a stable ascending sort; a
stable sort's output is uniquely determined by the comparator, so the
structurally recursive `List.insertionSort` (which is stable) models it
exactly. -/
def sortAsc (values : List ℚ) : List ℚ :=
  values.insertionSort (fun a b => a ≤ b)

/-- Model of `compute_quantile_over_time` from `compute.rs:147`. -/
def compute_quantile_over_time (q : ℚ) (samples : List Sample) : Option ℚ :=
  if samples = [] then none
  else some (quantile_sorted (sortAsc (samples.map Prod.snd)) q)

/-- Model of `compute_last_over_time` from `compute.rs:176`. -/
def compute_last_over_time (samples : List Sample) : Option ℚ :=
  samples.getLast?.map Prod.snd

/-- Model of `compute_first_over_time` from `compute.rs:181`. -/
def compute_first_over_time (samples : List Sample) : Option ℚ :=
  samples.head?.map Prod.snd

/-- Model of `compute_delta` from `compute.rs:186`. -/
def compute_delta (samples : List Sample) : Option ℚ :=
  if samples.length < 2 then none
  else some ((samples.getLastD (0, 0)).2 - (samples.headD (0, 0)).2)

/-- Model of `compute_idelta` from `compute.rs:196`. -/
def compute_idelta (samples : List Sample) : Option ℚ :=
  if samples.length < 2 then none
  else
    some ((samples.getLastD (0, 0)).2 -
          ((samples.drop (samples.length - 2)).headD (0, 0)).2)

/-- Model of `linear_regression_slope` from `compute.rs:225`. -/
def linear_regression_slope (samples : List Sample) : Option ℚ :=
  if samples.length < 2 then none
  else
    let n : ℚ := samples.length
    let sum_x := (samples.map Prod.fst).sum
    let sum_y := (samples.map Prod.snd).sum
    let sum_xy := (samples.map (fun s => s.1 * s.2)).sum
    let sum_x2 := (samples.map (fun s => s.1 * s.1)).sum
    let denom := n * sum_x2 - sum_x * sum_x
    if |denom| < f64_epsilon then none
    else some ((n * sum_xy - sum_x * sum_y) / denom)

/-- Model of `compute_deriv` from `compute.rs:206`. -/
def compute_deriv (samples : List Sample) : Option ℚ :=
  linear_regression_slope samples

/-- Model of `compute_predict_linear` from `compute.rs:211`. -/
def compute_predict_linear (samples : List Sample) (t_secs : ℚ) : Option ℚ :=
  if samples.length < 2 then none
  else
    (linear_regression_slope samples).map fun slope =>
      let n : ℚ := samples.length
      let mean_x := (samples.map Prod.fst).sum / n
      let mean_y := (samples.map Prod.snd).sum / n
      let intercept := mean_y - slope * mean_x
      let last_t := (samples.getLastD (0, 0)).1
      slope * (last_t + t_secs) + intercept

/-- Model of `compute_changes` from `compute.rs:243` (`windows(2)` = adjacent pairs). -/
def compute_changes (samples : List Sample) : Option ℚ :=
  if samples = [] then none
  else
    some (((samples.zip samples.tail).countP
      (fun p => f64_epsilon < |p.2.2 - p.1.2|) : ℕ) : ℚ)

/-- Model of `compute_resets` from `compute.rs:255`. -/
def compute_resets (samples : List Sample) : Option ℚ :=
  if samples = [] then none
  else
    some (((samples.zip samples.tail).countP (fun p => p.2.2 < p.1.2) : ℕ) : ℚ)

/-- Model of `compute_absent_over_time` from `compute.rs:264`. -/
def compute_absent_over_time (samples : List Sample) : Option ℚ :=
  if samples = [] then some 1 else none

/-- Model of `compute_present_over_time` from `compute.rs:273`. -/
def compute_present_over_time (samples : List Sample) : Option ℚ :=
  if samples = [] then none else some 1

/-- Model of `evaluate_range_func` from `compute.rs:8`: the dispatch table. -/
def evaluate_range_func (func : RangeFunc) (samples : List Sample)
    (param : Option ℚ) : Option ℚ :=
  match func with
  | .Rate => compute_rate samples
  | .Irate => compute_irate samples
  | .Increase => compute_increase samples
  | .SumOverTime => compute_sum_over_time samples
  | .AvgOverTime => compute_avg_over_time samples
  | .MinOverTime => compute_min_over_time samples
  | .MaxOverTime => compute_max_over_time samples
  | .CountOverTime => compute_count_over_time samples
  | .StddevOverTime => compute_stddev_over_time samples
  | .StdvarOverTime => compute_stdvar_over_time samples
  | .QuantileOverTime => compute_quantile_over_time (param.getD (1/2)) samples
  | .LastOverTime => compute_last_over_time samples
  | .FirstOverTime => compute_first_over_time samples
  | .Delta => compute_delta samples
  | .Idelta => compute_idelta samples
  | .Deriv => compute_deriv samples
  | .PredictLinear => compute_predict_linear samples (param.getD 0)
  | .Changes => compute_changes samples
  | .Resets => compute_resets samples
  | .AbsentOverTime => compute_absent_over_time samples
  | .PresentOverTime => compute_present_over_time samples

/-- The spec's description of `rate`'s numerator: the sum over adjacent
samples of `v[i]-v[i-1]` when non-negative, else `v[i]` (counter reset). -/
def sum_deltas_spec : List Sample → ℚ
  | a :: b :: rest =>
      (if 0 ≤ b.2 - a.2 then b.2 - a.2 else b.2) + sum_deltas_spec (b :: rest)
  | _ => 0

/-- The spec's `dt`: `last.timestamp - first.timestamp`. -/
def window_dt (samples : List Sample) : ℚ :=
  (samples.getLastD (0, 0)).1 - (samples.headD (0, 0)).1

/-- The counter-reset fixture from the spec (§8). -/
def counter_reset_fixture : List Sample :=
  [(0, 0), (10, 5), (20, 10), (30, 3), (40, 8)]

/-- The spec's quantile formula: clamp `q` to `[0,1]`, set
`rank = q·(n-1)` and return
`sorted[floor(rank)] + (sorted[ceil(rank)] - sorted[floor(rank)])·frac(rank)`. -/
def quantile_spec (sorted : List ℚ) (q : ℚ) : ℚ :=
  let qc := max 0 (min q 1)
  let rank := qc * ((sorted.length : ℚ) - 1)
  sorted.getD ⌊rank⌋.toNat 0 +
    (sorted.getD ⌈rank⌉.toNat 0 - sorted.getD ⌊rank⌋.toNat 0) * (rank - ⌊rank⌋)

/-- An `f64` value where IEEE special values matter: a finite rational,
`±∞`, or NaN.  (The distinction between `+0.0` and `-0.0` is not modelled;
no claim depends on it.) -/
inductive FVal
  | fin (q : ℚ)
  | inf
  | neginf
  | nan
deriving DecidableEq

/-- IEEE negation. -/
def fneg : FVal → FVal
  | .fin a => .fin (-a)
  | .inf => .neginf
  | .neginf => .inf
  | .nan => .nan

/-- IEEE addition. -/
def fadd : FVal → FVal → FVal
  | .nan, _ => .nan
  | _, .nan => .nan
  | .fin a, .fin b => .fin (a + b)
  | .fin _, .inf => .inf
  | .fin _, .neginf => .neginf
  | .inf, .fin _ => .inf
  | .neginf, .fin _ => .neginf
  | .inf, .inf => .inf
  | .neginf, .neginf => .neginf
  | .inf, .neginf => .nan
  | .neginf, .inf => .nan

/-- IEEE subtraction. -/
def fsub (a b : FVal) : FVal := fadd a (fneg b)

/-- IEEE multiplication. -/
def fmul : FVal → FVal → FVal
  | .nan, _ => .nan
  | _, .nan => .nan
  | .fin a, .fin b => .fin (a * b)
  | .fin a, .inf => if 0 < a then .inf else if a < 0 then .neginf else .nan
  | .fin a, .neginf => if 0 < a then .neginf else if a < 0 then .inf else .nan
  | .inf, .fin b => if 0 < b then .inf else if b < 0 then .neginf else .nan
  | .neginf, .fin b => if 0 < b then .neginf else if b < 0 then .inf else .nan
  | .inf, .inf => .inf
  | .inf, .neginf => .neginf
  | .neginf, .inf => .neginf
  | .neginf, .neginf => .inf

/-- IEEE division (zero-sign subtleties aside). -/
def fdiv : FVal → FVal → FVal
  | .nan, _ => .nan
  | _, .nan => .nan
  | .fin a, .fin b =>
      if b = 0 then (if a = 0 then .nan else if 0 < a then .inf else .neginf)
      else .fin (a / b)
  | .fin _, .inf => .fin 0
  | .fin _, .neginf => .fin 0
  | .inf, .fin b => if 0 ≤ b then .inf else .neginf
  | .neginf, .fin b => if 0 ≤ b then .neginf else .inf
  | .inf, .inf => .nan
  | .inf, .neginf => .nan
  | .neginf, .inf => .nan
  | .neginf, .neginf => .nan

/-- Truncation toward zero, as in Rust's `%` on `f64`. -/
def qtrunc (x : ℚ) : ℤ := if 0 ≤ x then ⌊x⌋ else ⌈x⌉

/-- IEEE remainder with the dividend's sign (Rust `f64` `%`). -/
def frem : FVal → FVal → FVal
  | .nan, _ => .nan
  | _, .nan => .nan
  | .fin a, .fin b => if b = 0 then .nan else .fin (a - b * (qtrunc (a / b) : ℚ))
  | .fin a, .inf => .fin a
  | .fin a, .neginf => .fin a
  | .inf, _ => .nan
  | .neginf, _ => .nan

/-- Model of `f64::powf` on integer exponents only (the claims never
evaluate `^`; the dispatch arm merely has to exist). -/
def fpow : FVal → FVal → FVal
  | .fin a, .fin b =>
      if b.den = 1 then (if a = 0 ∧ b.num < 0 then .inf else .fin (a ^ b.num))
      else .nan
  | _, _ => .nan

/-- IEEE equality test (`false` whenever either side is NaN). -/
def feq : FVal → FVal → Bool
  | .nan, _ => false
  | _, .nan => false
  | .fin a, .fin b => a = b
  | .inf, .inf => true
  | .neginf, .neginf => true
  | _, _ => false

/-- IEEE strict less-than (`false` whenever either side is NaN). -/
def flt : FVal → FVal → Bool
  | .nan, _ => false
  | _, .nan => false
  | .fin a, .fin b => a < b
  | .fin _, .inf => true
  | .fin _, .neginf => false
  | .inf, _ => false
  | .neginf, .fin _ => true
  | .neginf, .inf => true
  | .neginf, .neginf => false

/-- IEEE less-or-equal. -/
def fle (a b : FVal) : Bool := feq a b || flt a b

/-- The binary-operator vocabulary (`promql_parser` token ids used by
`binary.rs`). -/
inductive BinOp
  | Add | Sub | Mul | Div | Mod | Pow
  | Eq | Ne | Lt | Gt | Le | Ge
  | LAnd | LOr | LUnless
deriving DecidableEq

/-- Model of `comparison_op` from `binary.rs:357`. -/
def comparison_op (cond : Bool) (value : FVal) (return_bool : Bool) : Option FVal :=
  if return_bool then some (if cond then .fin 1 else .fin 0)
  else if cond then some value
  else none

/-- Model of `eval_binary_op` from `binary.rs:334`.  Division and modulo test
`r == 0.0` before dividing; set-operator tokens fall through to `None`. -/
def eval_binary_op (op : BinOp) (l r : FVal) (return_bool : Bool) : Option FVal :=
  match op with
  | .Add => some (fadd l r)
  | .Sub => some (fsub l r)
  | .Mul => some (fmul l r)
  | .Div => if r = .fin 0 then some .nan else some (fdiv l r)
  | .Mod => if r = .fin 0 then some .nan else some (frem l r)
  | .Pow => some (fpow l r)
  | .Eq => comparison_op (feq l r) l return_bool
  | .Ne => comparison_op (!feq l r) l return_bool
  | .Lt => comparison_op (flt l r) l return_bool
  | .Gt => comparison_op (flt r l) l return_bool
  | .Le => comparison_op (fle l r) l return_bool
  | .Ge => comparison_op (fle r l) l return_bool
  | _ => none

/-- Model of `match_signature` from `binary.rs:278`.  `labels.get(l)` on the
`BTreeMap` is modelled by `List.lookup` on the association list; the
`on(...)` branch's collection into a `BTreeMap` is modelled by the
projection list in `match_labels` order — two such lists are equal exactly
when the corresponding maps are. -/
def match_signature (labels : Labels) (match_labels : List String)
    (is_on : Bool) : Labels :=
  if is_on then
    match_labels.filterMap (fun l => (List.lookup l labels).map (fun v => (l, v)))
  else if match_labels ≠ [] then
    labels.filter (fun kv => !(match_labels.contains kv.1) && kv.1 != "__name__")
  else
    labels.filter (fun kv => kv.1 != "__name__")

/-- Model of `apply_set_op` from `binary.rs:218`.  The right-hand (and, for `or`,
left-hand) signature `HashSet` is modelled by a list with membership
lookup; the push loops become filters. -/
def apply_set_op (op : BinOp) (lhs rhs : List TimeSeries)
    (match_labels : List String) (is_on : Bool) : List TimeSeries :=
  let rhs_sigs := rhs.map (fun ts => match_signature ts.labels match_labels is_on)
  match op with
  | .LAnd =>
      lhs.filter (fun ts =>
        rhs_sigs.contains (match_signature ts.labels match_labels is_on))
  | .LUnless =>
      lhs.filter (fun ts =>
        !(rhs_sigs.contains (match_signature ts.labels match_labels is_on)))
  | .LOr =>
      let lhs_sigs := lhs.map (fun ts => match_signature ts.labels match_labels is_on)
      lhs ++ rhs.filter (fun ts =>
        !(lhs_sigs.contains (match_signature ts.labels match_labels is_on)))
  | _ => []

/-- The spec's signature function: on-labels projection when `on` is given,
otherwise all labels except the ignored ones and `__name__` (with an empty
ignore list this is just "all labels except `__name__`"). -/
def signature_spec (labels : Labels) (match_labels : List String)
    (is_on : Bool) : Labels :=
  if is_on then
    match_labels.filterMap (fun l => (List.lookup l labels).map (fun v => (l, v)))
  else
    labels.filter (fun kv => !(match_labels.contains kv.1) && kv.1 != "__name__")

/-- The closed `AggOp` vocabulary from `types.rs`. -/
inductive AggOp
  | Sum | Avg | Min | Max | Count | Stddev | Stdvar | Quantile
  | Topk | Bottomk | Group | CountValues
deriving DecidableEq

/-- Model of `build_group_key` from `aggregate.rs:110`. -/
def build_group_key (labels : Labels) (by_labels : List String)
    (without : Bool) : Labels :=
  if without then
    labels.filter (fun kv => !(by_labels.contains kv.1))
  else if by_labels = [] then []
  else
    by_labels.filterMap (fun l => (List.lookup l labels).map (fun v => (l, v)))

/-- A series' latest sample value, `samples.last().unwrap_or(0.0)`
(`aggregate.rs:155`). -/
def latest_value (ts : TimeSeries) : ℚ :=
  (ts.samples.getLast?.map Prod.snd).getD 0

/-- Rust's `f64 as usize`: saturates below zero, truncates toward zero. -/
def f64_as_usize (q : ℚ) : ℕ :=
  if q ≤ 0 then 0 else ⌊q⌋.toNat

/-- The members of one aggregation group: the input series whose group key
equals `key`, in input order (the `BTreeMap<_, Vec<_>>` pushes preserve
input order within each group). -/
def group_members (series : List TimeSeries) (by_labels : List String)
    (without : Bool) (key : Labels) : List TimeSeries :=
  series.filter (fun ts => decide (build_group_key ts.labels by_labels without = key))

/-- The per-group body of `aggregate_topk_bottomk`'s loop: stable-sort the
members ascending by latest value, then take the last `k` (`topk`, via
`.rev().take(k)`) or the first `k` (`bottomk`). -/
def topk_group_chunk (series : List TimeSeries) (op : AggOp) (k : ℕ)
    (by_labels : List String) (without : Bool) (key : Labels) :
    List TimeSeries :=
  let sorted := (group_members series by_labels without key).insertionSort
    (fun a b => latest_value a ≤ latest_value b)
  match op with
  | .Topk => sorted.reverse.take k
  | .Bottomk => sorted.take k
  | _ => []

/-- Model of `aggregate_topk_bottomk` from `aggregate.rs:132`.  The stable
`sort_by` on latest values is modelled by `insertionSort` (stable sorts
agree); groups are emitted in first-occurrence key order rather than the
`BTreeMap`'s key order, which no claim observes. -/
def aggregate_topk_bottomk (series : List TimeSeries) (op : AggOp)
    (param : Option ℚ) (by_labels : List String) (without : Bool) :
    List TimeSeries :=
  let k := f64_as_usize (param.getD 5)
  if k = 0 then []
  else
    ((series.map (fun ts => build_group_key ts.labels by_labels without)).dedup).flatMap
      (topk_group_chunk series op k by_labels without)

/-- The three-series fixture from the spec (§8), latest values 100/300/200. -/
def topk_fixture_a : TimeSeries := ⟨[("instance", "a")], [(10, 100)]⟩

/-- Second fixture series (latest value 300). -/
def topk_fixture_b : TimeSeries := ⟨[("instance", "b")], [(10, 300)]⟩

/-- Third fixture series (latest value 200). -/
def topk_fixture_c : TimeSeries := ⟨[("instance", "c")], [(10, 200)]⟩

/-- Tie fixture: first-input series, latest value 5. -/
def tie_fixture_x : TimeSeries := ⟨[("instance", "x")], [(10, 5)]⟩

/-- Tie fixture: later-input series with the same latest value 5. -/
def tie_fixture_y : TimeSeries := ⟨[("instance", "y")], [(10, 5)]⟩

/-- A raw store row after label-set construction: `(labels, ts_secs, value)`
(`eval.rs:362`). -/
abbrev Row := Labels × ℚ × ℚ

/-- The `(timestamp, value)` pairs of the rows carrying a given label set,
in input order (the per-key `Vec` pushes of `group_into_series`). -/
def rows_for (samples : List Row) (key : Labels) : List Sample :=
  (samples.filter (fun r => decide (r.1 = key))).map (fun r => (r.2.1, r.2.2))

/-- Model of `group_into_series` from `types.rs:119`: group rows by label set, then
stable-sort each group's samples ascending by timestamp.  The `BTreeMap`
grouping keeps per-key rows in input order; groups are emitted here in
`dedup` key order rather than the map's key order, which no claim
observes.  The stable `sort_by` is modelled by `insertionSort`. -/
def group_into_series (samples : List Row) : List TimeSeries :=
  ((samples.map (fun r => r.1)).dedup).map (fun key =>
    ⟨key, (rows_for samples key).insertionSort (fun a b => a.1 ≤ b.1)⟩)

/-- Model of `step_align_series` from `eval.rs:385`: snap each series to the step
grid, picking per step the latest sample within the half-step tolerance
(full look-back window, minimum 5 s, for a single-step instant query). -/
def step_align_series (series : List TimeSeries) (step_timestamps : List ℚ)
    (lookback : ℚ) : List TimeSeries :=
  let half_step :=
    match step_timestamps with
    | t0 :: t1 :: _ => (t1 - t0) / 2
    | _ => max lookback 5
  series.map (fun ts =>
    ⟨ts.labels,
     step_timestamps.filterMap (fun t =>
       (ts.samples.reverse.find? (fun s =>
         decide (s.1 ≤ t + half_step) && decide (t - half_step ≤ s.1))).map
           (fun s => (t, s.2)))⟩)

/-- The sub-store fetch predicate of `query_clickhouse` (`eval.rs:311`):
rows whose timestamp lies in the closed window whose bounds the SQL
renders as whole seconds — `toDateTime64({start_secs as i64})` /
`toDateTime64({end_secs as i64})` — so both bounds are truncated toward
zero (`qtrunc`) before they reach the store. -/
def fetch_window (store : List Row) (start_secs end_secs : ℚ) : List Row :=
  store.filter (fun r =>
    decide ((qtrunc start_secs : ℚ) ≤ r.2.1) &&
    decide (r.2.1 ≤ (qtrunc end_secs : ℚ)))

/-- The pure tail of `query_clickhouse` (`eval.rs:354`): each sub-store
fetch result collapses to an empty row set on failure
(`unwrap_or_default`), the gauge rows are chained before the sum rows,
grouped into series, and step-aligned when `align` is set (with look-back
`end - start`).  No error is ever returned. -/
def query_clickhouse (gauge_res sum_res : Except String (List Row))
    (start_secs end_secs : ℚ) (step_timestamps : List ℚ) (align : Bool) :
    Except String (List TimeSeries) :=
  let gauge_rows := match gauge_res with | .ok r => r | .error _ => []
  let sum_rows := match sum_res with | .ok r => r | .error _ => []
  let series := group_into_series (gauge_rows ++ sum_rows)
  if align then
    Except.ok (step_align_series series step_timestamps (end_secs - start_secs))
  else
    Except.ok series

/-- Model of `evaluate_instant_query` (`eval.rs:16`) on a plain vector selector:
single step timestamp `T`, fetch window `[T-L, T]` against both sub-stores
(both fetches succeeding), aligned. -/
def evaluate_instant_selector (gauge_store sum_store : List Row)
    (T L : ℚ) : List TimeSeries :=
  match query_clickhouse (.ok (fetch_window gauge_store (T - L) T))
      (.ok (fetch_window sum_store (T - L) T)) (T - L) T [T] true with
  | .ok s => s
  | .error _ => []

/-- A histogram bucket boundary: a finite `le` or the `"+Inf"` bucket.
`le` labels parse to finite floats or `+Inf` only, so NaN/−∞ cannot occur
here. -/
inductive Le
  | val (q : ℚ)
  | inf
deriving DecidableEq

/-- Ascending order on bucket boundaries (`partial_cmp` on the parsed
`f64` boundaries, with `+Inf` maximal). -/
def le_leb : Le → Le → Bool
  | .val a, .val b => a ≤ b
  | .val _, .inf => true
  | .inf, .val _ => false
  | .inf, .inf => true

/-- Embed a bucket boundary into the extended value domain for the
interpolation arithmetic. -/
def leToF : Le → FVal
  | .val q => .fin q
  | .inf => .inf

/-- Digits-only parse of a natural number. -/
def parseDigits : List Char → Option ℕ
  | [] => none
  | cs =>
      if cs.all Char.isDigit then
        some (cs.foldl (fun n c => 10 * n + (c.toNat - 48)) 0)
      else none

/-- Parse of a plain decimal numeral (`f64::from_str` restricted to the
`[+-]digits[.digits]` forms that bucket `le` labels use; scientific
notation is not modelled). -/
def parseRatStr (s : String) : Option ℚ :=
  let cs := s.toList
  let signAndRest : ℚ × List Char :=
    match cs with
    | '-' :: rest => (-1, rest)
    | '+' :: rest => (1, rest)
    | _ => (1, cs)
  match (signAndRest.2).span (fun c => c != '.') with
  | (intPart, []) => (parseDigits intPart).map (fun n => signAndRest.1 * n)
  | (intPart, _dot :: fracPart) =>
      match parseDigits intPart, parseDigits fracPart with
      | some n, some f =>
          some (signAndRest.1 * ((n : ℚ) + (f : ℚ) / 10 ^ fracPart.length))
      | _, _ => none

/-- The `le` label parse of `compute_histogram_quantile` (`scalar.rs:109`):
`"+Inf"` is positive infinity, anything else parses as a float with
fallback `0`. -/
def parse_le (s : String) : Le :=
  if s = "+Inf" then .inf
  else .val ((parseRatStr s).getD 0)

/-- Remove one label key (`BTreeMap::remove` on the canonical list). -/
def labels_remove (k : String) (ls : Labels) : Labels :=
  ls.filter (fun kv => kv.1 != k)

/-- A bucket series' group key: its labels with `le` and `__name__`
removed (`scalar.rs:105`). -/
def bucket_group_key (ts : TimeSeries) : Labels :=
  labels_remove "__name__" (labels_remove "le" ts.labels)

/-- A bucket series' parsed boundary (`le` label, `""` when absent). -/
def bucket_le (ts : TimeSeries) : Le :=
  parse_le ((List.lookup "le" ts.labels).getD "")

/-- The histogram groups: for each distinct reduced label set, the
`(le, cumulative_count)` pairs of its bucket series in input order, the
count being each series' last sample value (`unwrap_or(0.0)`). -/
def histogram_groups (series : List TimeSeries) : List (Labels × List (Le × ℚ)) :=
  ((series.map bucket_group_key).dedup).map (fun key =>
    (key, (series.filter (fun ts => decide (bucket_group_key ts = key))).map
      (fun ts => (bucket_le ts, latest_value ts))))

/-- The bucket walk of `compute_histogram_quantile` (`scalar.rs:139`):
scan for the first bucket whose cumulative count reaches the target and
linearly interpolate its boundary; falling off the end leaves the
initial NaN. -/
def hq_walk_aux (target : ℚ) (prev_le : FVal) (prev_count : ℚ) :
    List (Le × ℚ) → FVal
  | [] => .nan
  | (le, count) :: rest =>
      if target ≤ count then
        let bucket_count := count - prev_count
        if 0 < bucket_count then
          let fraction := (target - prev_count) / bucket_count
          fadd prev_le (fmul (fsub (leToF le) prev_le) (.fin fraction))
        else prev_le
      else hq_walk_aux target (leToF le) count rest

/-- The per-group emission of `compute_histogram_quantile`, parametrised
by the group's total count: empty bucket lists and zero totals are
dropped, otherwise one sample at `eval_time` with the walked value. -/
def hq_group_output (phi eval_time total : ℚ) (key : Labels)
    (sorted : List (Le × ℚ)) : Option (Labels × List (ℚ × FVal)) :=
  if sorted = [] then none
  else if total = 0 then none
  else some (key, [(eval_time, hq_walk_aux (phi * total) (.fin 0) 0 sorted)])

/-- The evaluation timestamp: the first input series' last sample time
(`scalar.rs:159`). -/
def hq_eval_time (series : List TimeSeries) : ℚ :=
  ((series.head?.bind (fun s => s.samples.getLast?)).map Prod.fst).getD 0

/-- Model of `compute_histogram_quantile` from `scalar.rs:96`: group, sort each
group's buckets ascending by `le` (stable sort modelled by
`insertionSort`), take the *last sorted* bucket's count as the total, and
emit the interpolated quantile per group. -/
def compute_histogram_quantile (phi : ℚ) (series : List TimeSeries) :
    List (Labels × List (ℚ × FVal)) :=
  (histogram_groups series).filterMap (fun g =>
    let sorted := g.2.insertionSort (fun a b => le_leb a.1 b.1 = true)
    hq_group_output phi (hq_eval_time series)
      (((sorted.getLast?).map Prod.snd).getD 0) g.1 sorted)

/-- The spec's formulation: identical grouping, sorting, walking and
zero-total dropping, but the total is *the `+Inf` bucket's count* (the
count of the group's bucket whose boundary is `+Inf`). -/
def histogram_quantile_spec (phi : ℚ) (series : List TimeSeries) :
    List (Labels × List (ℚ × FVal)) :=
  (histogram_groups series).filterMap (fun g =>
    let sorted := g.2.insertionSort (fun a b => le_leb a.1 b.1 = true)
    hq_group_output phi (hq_eval_time series)
      (((g.2.filter (fun b => decide (b.1 = Le.inf))).map Prod.snd).headD 0)
      g.1 sorted)

-- ═══════════════════════════════════════════════════════════════════
-- Theorems
-- ═══════════════════════════════════════════════════════════════════

theorem rate_increase_loop_acc :
    ∀ (l : List Sample) (acc : ℚ),
      (l.zip l.tail).foldl
        (fun acc p =>
          let delta := p.2.2 - p.1.2
          if 0 ≤ delta then acc + delta else acc + p.2.2) acc
      = acc + sum_deltas_spec l := by
  intro l
  induction l with
  | nil => intro acc; simp [sum_deltas_spec]
  | cons a l ih =>
    intro acc
    cases l with
    | nil => simp [sum_deltas_spec]
    | cons b rest =>
      have hzip : ((a :: b :: rest).zip (a :: b :: rest).tail) =
          (a, b) :: ((b :: rest).zip (b :: rest).tail) := by
        simp [List.zip]
      rw [hzip, List.foldl_cons, ih]
      show (if 0 ≤ b.2 - a.2 then acc + (b.2 - a.2) else acc + b.2) +
          sum_deltas_spec (b :: rest) = acc + sum_deltas_spec (a :: b :: rest)
      rw [show sum_deltas_spec (a :: b :: rest) =
          (if 0 ≤ b.2 - a.2 then b.2 - a.2 else b.2) + sum_deltas_spec (b :: rest)
        from rfl]
      split <;> ring

/-- The numerator loop of `compute_rate` computes the spec's delta sum. -/
theorem rate_increase_loop_eq (l : List Sample) :
    rate_increase_loop l = sum_deltas_spec l := by
  rw [rate_increase_loop, rate_increase_loop_acc l 0, zero_add]

/-- C1: `compute_rate` returns no value when the window has fewer than 2
samples or when `dt = last.timestamp - first.timestamp` is not strictly
positive, and otherwise returns the sum of the adjacent-sample deltas
(`v[i]-v[i-1]` when non-negative, else `v[i]`, a counter reset) divided by
`dt`; on the counter-reset fixture `[(0,0),(10,5),(20,10),(30,3),(40,8)]`
it returns `18/40 = 0.45` and `compute_resets` returns `1`. -/
theorem C1_compute_rate_correct :
    (∀ samples : List Sample, samples.length < 2 → compute_rate samples = none) ∧
    (∀ samples : List Sample, window_dt samples ≤ 0 → compute_rate samples = none) ∧
    (∀ samples : List Sample, 2 ≤ samples.length → 0 < window_dt samples →
      compute_rate samples = some (sum_deltas_spec samples / window_dt samples)) ∧
    compute_rate counter_reset_fixture = some (9 / 20) ∧
    compute_resets counter_reset_fixture = some 1 := by
  refine ⟨?_, ?_, ?_, by with_unfolding_all rfl, by with_unfolding_all rfl⟩
  · intro s h
    simp [compute_rate, h]
  · intro s h
    simp only [compute_rate, window_dt] at *
    split
    · rfl
    · simp [h]
  · intro s h1 h2
    simp only [compute_rate, window_dt] at *
    rw [if_neg (by omega), if_neg (by exact not_le.mpr h2), rate_increase_loop_eq]

/-- Witness for C1: the general rate formula applied to the concrete
counter-reset fixture. -/
theorem C1_compute_rate_correct_witness :
    compute_rate counter_reset_fixture =
      some (sum_deltas_spec counter_reset_fixture / window_dt counter_reset_fixture) :=
  C1_compute_rate_correct.2.2.1 counter_reset_fixture
    (by with_unfolding_all decide) (by with_unfolding_all decide)

/-- C5: for every non-empty ascending-sorted list, `quantile_sorted` computes
the spec's clamped linear-interpolation quantile, a single-element list
returns its element, and the two fixture evaluations hold.  (The equation
holds for every non-empty list, sorted or not.) -/
theorem C5_quantile_sorted_correct :
    (∀ (sorted : List ℚ) (q : ℚ), sorted ≠ [] →
      quantile_sorted sorted q = quantile_spec sorted q) ∧
    (∀ (x q : ℚ), quantile_sorted [x] q = x) ∧
    quantile_sorted [1, 2, 3, 4, 5] (1 / 4) = 2 ∧
    quantile_sorted [1, 2, 3, 4, 5] (3 / 4) = 4 := by
  refine ⟨?_, ?_, by with_unfolding_all rfl, by with_unfolding_all rfl⟩
  · intro sorted q hne
    have hn1 : 1 ≤ sorted.length := by
      cases sorted with
      | nil => exact absurd rfl hne
      | cons a rest => simp
    simp only [quantile_sorted, quantile_spec, if_neg hne]
    set qc := max 0 (min q 1) with hqcdef
    have hqc0 : 0 ≤ qc := le_max_left 0 _
    have hqc1 : qc ≤ 1 := max_le zero_le_one (min_le_right q 1)
    set rank := qc * ((sorted.length : ℚ) - 1) with hrankdef
    have hrank0 : 0 ≤ rank := by
      apply mul_nonneg hqc0
      have : (1 : ℚ) ≤ (sorted.length : ℚ) := by exact_mod_cast hn1
      linarith
    have hfl0 : 0 ≤ ⌊rank⌋ := Int.floor_nonneg.mpr hrank0
    have hrank_le : rank ≤ (sorted.length : ℚ) - 1 := by
      have h1 : (1 : ℚ) ≤ (sorted.length : ℚ) := by exact_mod_cast hn1
      calc rank ≤ 1 * ((sorted.length : ℚ) - 1) :=
            mul_le_mul_of_nonneg_right hqc1 (by linarith)
        _ = (sorted.length : ℚ) - 1 := one_mul _
    have hcast : ((sorted.length - 1 : ℕ) : ℚ) = (sorted.length : ℚ) - 1 := by
      have := hn1; push_cast [Nat.cast_sub hn1]; ring
    by_cases h1 : sorted.length = 1
    · rw [if_pos h1]
      obtain ⟨a, rfl⟩ : ∃ a, sorted = [a] := by
        cases sorted with
        | nil => exact absurd rfl hne
        | cons a rest =>
          cases rest with
          | nil => exact ⟨a, rfl⟩
          | cons b r2 => simp at h1
      have hr0 : rank = 0 := by
        rw [hrankdef]; norm_num
      simp [hr0]
    · rw [if_neg h1]
      have hn2 : 2 ≤ sorted.length := by omega
      have hfloor_len : ⌊(sorted.length : ℚ) - 1⌋ = (sorted.length : ℤ) - 1 := by
        rw [show ((sorted.length : ℚ) - 1) =
            (((sorted.length : ℤ) - 1 : ℤ) : ℚ) by push_cast; ring]
        exact Int.floor_intCast _
      have hflle : ⌊rank⌋ ≤ (sorted.length : ℤ) - 1 := by
        rw [← hfloor_len]
        exact Int.floor_le_floor hrank_le
      by_cases hfr : rank - ⌊rank⌋ = 0
      · -- rank is an integer: floor = ceil, no interpolation
        have hre : (⌊rank⌋ : ℚ) = rank := by linarith
        have hceil : ⌈rank⌉ = ⌊rank⌋ := by
          rw [← hre, Int.ceil_intCast, Int.floor_intCast]
        have hmin : min ⌊rank⌋.toNat (sorted.length - 1) = ⌊rank⌋.toNat := by
          omega
        rw [if_pos (Or.inl (by rw [hceil])), hmin, hceil, hfr]
        ring
      · -- rank is not an integer: floor < rank < ceil = floor + 1
        have hlt : (⌊rank⌋ : ℚ) < rank :=
          lt_of_le_of_ne (Int.floor_le rank) (by intro h; exact hfr (by linarith))
        have hceil : ⌈rank⌉ = ⌊rank⌋ + 1 := by
          refine le_antisymm (Int.ceil_le_floor_add_one rank) ?_
          have h2 : (⌊rank⌋ : ℚ) < (⌈rank⌉ : ℚ) := lt_of_lt_of_le hlt (Int.le_ceil rank)
          exact_mod_cast Int.add_one_le_of_lt (by exact_mod_cast h2)
        have hne_int : rank ≠ (sorted.length : ℚ) - 1 := by
          intro h
          apply hfr
          rw [h, hfloor_len]
          push_cast
          ring
        have hrank_lt : rank < (sorted.length : ℚ) - 1 :=
          lt_of_le_of_ne hrank_le hne_int
        have hfl_lt : ⌊rank⌋ < (sorted.length : ℤ) - 1 := by
          have : (⌊rank⌋ : ℚ) < (((sorted.length : ℤ) - 1 : ℤ) : ℚ) := by
            push_cast
            linarith [Int.floor_le rank]
          exact_mod_cast this
        have hcond : ¬(⌊rank⌋.toNat = ⌈rank⌉.toNat ∨
            sorted.length ≤ ⌊rank⌋.toNat + 1) := by
          rw [hceil]; omega
        rw [if_neg hcond, hceil]
        have htn : ((⌊rank⌋.toNat : ℕ) : ℚ) = (⌊rank⌋ : ℚ) := by
          exact_mod_cast Int.toNat_of_nonneg hfl0
        rw [htn]
  · intro x q
    simp [quantile_sorted]

/-- Witness for C5: the general quantile equation applied to the concrete
five-element fixture at `q = 1/4`. -/
theorem C5_quantile_sorted_correct_witness :
    quantile_sorted [1, 2, 3, 4, 5] (1 / 4) = quantile_spec [1, 2, 3, 4, 5] (1 / 4) :=
  C5_quantile_sorted_correct.1 [1, 2, 3, 4, 5] (1 / 4) (by simp)

/-- C6: on an empty sample window every range function produces no output
point, with the single exception of `absent_over_time`, which returns `1`
on an empty window and nothing on a non-empty one; `present_over_time` is
its exact complement. -/
theorem C6_empty_window_no_output :
    (∀ (f : RangeFunc) (param : Option ℚ), f ≠ RangeFunc.AbsentOverTime →
      evaluate_range_func f [] param = none) ∧
    (∀ param : Option ℚ,
      evaluate_range_func RangeFunc.AbsentOverTime [] param = some 1) ∧
    (∀ (samples : List Sample) (param : Option ℚ), samples ≠ [] →
      evaluate_range_func RangeFunc.AbsentOverTime samples param = none ∧
      evaluate_range_func RangeFunc.PresentOverTime samples param = some 1) ∧
    (∀ param : Option ℚ,
      evaluate_range_func RangeFunc.PresentOverTime [] param = none) := by
  refine ⟨?_, fun _ => rfl, ?_, fun _ => rfl⟩
  · intro f param hf
    cases f <;> first | rfl | exact absurd rfl hf
  · intro samples param hne
    cases samples with
    | nil => exact absurd rfl hne
    | cons a rest => exact ⟨rfl, rfl⟩

/-- Witness for C6: the `rate` function on the empty window. -/
theorem C6_empty_window_no_output_witness :
    evaluate_range_func RangeFunc.Rate [] none = none :=
  C6_empty_window_no_output.1 RangeFunc.Rate none (by decide)

/-- C7: for every left operand and both filter/annotate modes, dividing or
taking the modulo by zero produces the NaN value as a normal result point
(`some`), never an error and never a dropped point (`none`). -/
theorem C7_div_mod_by_zero_nan :
    ∀ (l : FVal) (return_bool : Bool),
      eval_binary_op BinOp.Div l (.fin 0) return_bool = some FVal.nan ∧
      eval_binary_op BinOp.Mod l (.fin 0) return_bool = some FVal.nan := by
  intro l rb
  constructor <;> simp [eval_binary_op]

theorem contains_map_sig (l : List TimeSeries) (f : TimeSeries → Labels)
    (y : Labels) :
    (l.map f).contains y = decide (∃ x ∈ l, f x = y) := by
  simp [List.mem_map]

/-- C8: the set operators operate on whole series via the matching
signature: the code's `match_signature` agrees with the spec's signature
function in all three modifier modes, `and` returns exactly the left series
whose signature occurs among the right signatures, `unless` exactly those
whose signature does not, and `or` all left series plus every right series
whose signature is absent from the left signatures. -/
theorem C8_set_ops_correct :
    ∀ (lhs rhs : List TimeSeries) (ml : List String) (is_on : Bool),
      (∀ labels : Labels,
        match_signature labels ml is_on = signature_spec labels ml is_on) ∧
      apply_set_op BinOp.LAnd lhs rhs ml is_on =
        lhs.filter (fun ts => decide (∃ r ∈ rhs,
          match_signature r.labels ml is_on = match_signature ts.labels ml is_on)) ∧
      apply_set_op BinOp.LUnless lhs rhs ml is_on =
        lhs.filter (fun ts => !decide (∃ r ∈ rhs,
          match_signature r.labels ml is_on = match_signature ts.labels ml is_on)) ∧
      apply_set_op BinOp.LOr lhs rhs ml is_on =
        lhs ++ rhs.filter (fun ts => !decide (∃ l ∈ lhs,
          match_signature l.labels ml is_on = match_signature ts.labels ml is_on)) := by
  intro lhs rhs ml is_on
  refine ⟨?_, ?_, ?_, ?_⟩
  · intro labels
    unfold match_signature signature_spec
    by_cases ho : is_on
    · simp [ho]
    · simp only [ho, Bool.false_eq_true, if_false]
      by_cases hml : ml = []
      · subst hml
        simp
      · simp [hml]
  · simp only [apply_set_op]
    exact List.filter_congr (fun ts _ => by
      rw [contains_map_sig rhs (fun r => match_signature r.labels ml is_on)])
  · simp only [apply_set_op]
    exact List.filter_congr (fun ts _ => by
      rw [contains_map_sig rhs (fun r => match_signature r.labels ml is_on)])
  · simp only [apply_set_op, List.append_cancel_left_eq]
    exact List.filter_congr (fun ts _ => by
      rw [contains_map_sig lhs (fun l => match_signature l.labels ml is_on)])

/-- Every series a group chunk emits is one of that group's members. -/
theorem topk_chunk_subset {series : List TimeSeries} {op : AggOp}
    {by_labels : List String} {without : Bool} {key : Labels} {k : ℕ}
    {ts : TimeSeries}
    (h : ts ∈ topk_group_chunk series op k by_labels without key) :
    ts ∈ group_members series by_labels without key := by
  have hsort := List.perm_insertionSort
    (fun a b : TimeSeries => latest_value a ≤ latest_value b)
    (group_members series by_labels without key)
  unfold topk_group_chunk at h
  cases op <;> simp only at h <;> first
  | exact absurd h (List.not_mem_nil ts)
  | exact hsort.mem_iff.mp (List.mem_reverse.mp (List.mem_of_mem_take h))
  | exact hsort.mem_iff.mp (List.mem_of_mem_take h)

/-- Membership in the aggregate result, unfolded to a group chunk. -/
theorem mem_aggregate_topk_bottomk {series : List TimeSeries} {op : AggOp}
    {param : Option ℚ} {by_labels : List String} {without : Bool}
    {ts : TimeSeries} (hk : f64_as_usize (param.getD 5) ≠ 0) :
    ts ∈ aggregate_topk_bottomk series op param by_labels without ↔
      ∃ key ∈ (series.map (fun s => build_group_key s.labels by_labels without)).dedup,
        ts ∈ topk_group_chunk series op (f64_as_usize (param.getD 5))
          by_labels without key := by
  simp only [aggregate_topk_bottomk, if_neg hk, List.mem_flatMap]

/-- The group key of anything in a group's member list is that group's key. -/
theorem group_members_key {series : List TimeSeries} {by_labels : List String}
    {without : Bool} {key : Labels} {ts : TimeSeries}
    (h : ts ∈ group_members series by_labels without key) :
    build_group_key ts.labels by_labels without = key := by
  have := (List.mem_filter.mp h).2
  simpa using this

theorem mem_group_members {series : List TimeSeries} {by_labels : List String}
    {without : Bool} {ts : TimeSeries} (h : ts ∈ series) :
    ts ∈ group_members series by_labels without
      (build_group_key ts.labels by_labels without) := by
  exact List.mem_filter.mpr ⟨h, by simp⟩

/-- Anything `topk` keeps dominates (in latest value) everything of its
group it drops: a same-group series with a strictly larger latest value is
also kept. -/
theorem topk_dominance {series : List TimeSeries} {param : Option ℚ}
    {by_labels : List String} {without : Bool} {s u : TimeSeries}
    (hs : s ∈ aggregate_topk_bottomk series AggOp.Topk param by_labels without)
    (hu : u ∈ series)
    (hkey : build_group_key u.labels by_labels without =
      build_group_key s.labels by_labels without)
    (hlt : latest_value s < latest_value u) :
    u ∈ aggregate_topk_bottomk series AggOp.Topk param by_labels without := by
  by_cases hk : f64_as_usize (param.getD 5) = 0
  · simp [aggregate_topk_bottomk, hk] at hs
  · obtain ⟨key, hkeymem, hchunk⟩ := (mem_aggregate_topk_bottomk hk).mp hs
    have hsmem : s ∈ group_members series by_labels without key :=
      topk_chunk_subset hchunk
    have hgs : build_group_key s.labels by_labels without = key :=
      group_members_key hsmem
    have humem : u ∈ group_members series by_labels without key :=
      List.mem_filter.mpr ⟨hu, by simp [hkey.trans hgs]⟩
    haveI : IsTotal TimeSeries (fun a b => latest_value a ≤ latest_value b) :=
      ⟨fun a b => le_total _ _⟩
    haveI : IsTrans TimeSeries (fun a b => latest_value a ≤ latest_value b) :=
      ⟨fun a b c hab hbc => le_trans hab hbc⟩
    have hsort : ((group_members series by_labels without key).insertionSort
        (fun a b => latest_value a ≤ latest_value b)).Sorted
        (fun a b => latest_value a ≤ latest_value b) :=
      List.sorted_insertionSort _ _
    have hperm := List.perm_insertionSort
      (fun a b : TimeSeries => latest_value a ≤ latest_value b)
      (group_members series by_labels without key)
    have hchunk' : s ∈ (((group_members series by_labels without key).insertionSort
        (fun a b => latest_value a ≤ latest_value b)).reverse).take
          (f64_as_usize (param.getD 5)) := by
      simpa [topk_group_chunk] using hchunk
    have hud : u ∈ ((group_members series by_labels without key).insertionSort
        (fun a b => latest_value a ≤ latest_value b)).reverse :=
      List.mem_reverse.mpr (hperm.mem_iff.mpr humem)
    by_cases hutake : u ∈ (((group_members series by_labels without key).insertionSort
        (fun a b => latest_value a ≤ latest_value b)).reverse).take
          (f64_as_usize (param.getD 5))
    · exact (mem_aggregate_topk_bottomk hk).mpr
        ⟨key, hkeymem, by simpa [topk_group_chunk] using hutake⟩
    · exfalso
      have hudrop : u ∈ (((group_members series by_labels without key).insertionSort
          (fun a b => latest_value a ≤ latest_value b)).reverse).drop
            (f64_as_usize (param.getD 5)) := by
        have hmem : u ∈ (((group_members series by_labels without key).insertionSort
            (fun a b => latest_value a ≤ latest_value b)).reverse).take
              (f64_as_usize (param.getD 5)) ++
            (((group_members series by_labels without key).insertionSort
            (fun a b => latest_value a ≤ latest_value b)).reverse).drop
              (f64_as_usize (param.getD 5)) := by
          rw [List.take_append_drop]
          exact hud
        rcases List.mem_append.mp hmem with h1 | h2
        · exact absurd h1 hutake
        · exact h2
      have hpw : (((group_members series by_labels without key).insertionSort
          (fun a b => latest_value a ≤ latest_value b)).reverse).Pairwise
          (fun a b => latest_value b ≤ latest_value a) :=
        List.pairwise_reverse.mpr hsort
      have hpw2 : ((((group_members series by_labels without key).insertionSort
          (fun a b => latest_value a ≤ latest_value b)).reverse).take
            (f64_as_usize (param.getD 5)) ++
          (((group_members series by_labels without key).insertionSort
          (fun a b => latest_value a ≤ latest_value b)).reverse).drop
            (f64_as_usize (param.getD 5))).Pairwise
          (fun a b => latest_value b ≤ latest_value a) := by
        rw [List.take_append_drop]
        exact hpw
      have hle := (List.pairwise_append.mp hpw2).2.2 s hchunk' u hudrop
      exact absurd hlt (not_lt.mpr hle)

/-- Anything `bottomk` keeps is dominated by everything of its group it
drops: a same-group series with a strictly smaller latest value is also
kept. -/
theorem bottomk_dominance {series : List TimeSeries} {param : Option ℚ}
    {by_labels : List String} {without : Bool} {s u : TimeSeries}
    (hs : s ∈ aggregate_topk_bottomk series AggOp.Bottomk param by_labels without)
    (hu : u ∈ series)
    (hkey : build_group_key u.labels by_labels without =
      build_group_key s.labels by_labels without)
    (hlt : latest_value u < latest_value s) :
    u ∈ aggregate_topk_bottomk series AggOp.Bottomk param by_labels without := by
  by_cases hk : f64_as_usize (param.getD 5) = 0
  · simp [aggregate_topk_bottomk, hk] at hs
  · obtain ⟨key, hkeymem, hchunk⟩ := (mem_aggregate_topk_bottomk hk).mp hs
    have hsmem : s ∈ group_members series by_labels without key :=
      topk_chunk_subset hchunk
    have hgs : build_group_key s.labels by_labels without = key :=
      group_members_key hsmem
    have humem : u ∈ group_members series by_labels without key :=
      List.mem_filter.mpr ⟨hu, by simp [hkey.trans hgs]⟩
    haveI : IsTotal TimeSeries (fun a b => latest_value a ≤ latest_value b) :=
      ⟨fun a b => le_total _ _⟩
    haveI : IsTrans TimeSeries (fun a b => latest_value a ≤ latest_value b) :=
      ⟨fun a b c hab hbc => le_trans hab hbc⟩
    have hsort : ((group_members series by_labels without key).insertionSort
        (fun a b => latest_value a ≤ latest_value b)).Sorted
        (fun a b => latest_value a ≤ latest_value b) :=
      List.sorted_insertionSort _ _
    have hperm := List.perm_insertionSort
      (fun a b : TimeSeries => latest_value a ≤ latest_value b)
      (group_members series by_labels without key)
    have hchunk' : s ∈ ((group_members series by_labels without key).insertionSort
        (fun a b => latest_value a ≤ latest_value b)).take
          (f64_as_usize (param.getD 5)) := by
      simpa [topk_group_chunk] using hchunk
    have hud : u ∈ (group_members series by_labels without key).insertionSort
        (fun a b => latest_value a ≤ latest_value b) :=
      hperm.mem_iff.mpr humem
    by_cases hutake : u ∈ ((group_members series by_labels without key).insertionSort
        (fun a b => latest_value a ≤ latest_value b)).take
          (f64_as_usize (param.getD 5))
    · exact (mem_aggregate_topk_bottomk hk).mpr
        ⟨key, hkeymem, by simpa [topk_group_chunk] using hutake⟩
    · exfalso
      have hudrop : u ∈ ((group_members series by_labels without key).insertionSort
          (fun a b => latest_value a ≤ latest_value b)).drop
            (f64_as_usize (param.getD 5)) := by
        have hmem : u ∈ ((group_members series by_labels without key).insertionSort
            (fun a b => latest_value a ≤ latest_value b)).take
              (f64_as_usize (param.getD 5)) ++
            ((group_members series by_labels without key).insertionSort
            (fun a b => latest_value a ≤ latest_value b)).drop
              (f64_as_usize (param.getD 5)) := by
          rw [List.take_append_drop]
          exact hud
        rcases List.mem_append.mp hmem with h1 | h2
        · exact absurd h1 hutake
        · exact h2
      have hpw2 : (((group_members series by_labels without key).insertionSort
          (fun a b => latest_value a ≤ latest_value b)).take
            (f64_as_usize (param.getD 5)) ++
          ((group_members series by_labels without key).insertionSort
          (fun a b => latest_value a ≤ latest_value b)).drop
            (f64_as_usize (param.getD 5))).Pairwise
          (fun a b => latest_value a ≤ latest_value b) := by
        rw [List.take_append_drop]
        exact hsort
      have hle := (List.pairwise_append.mp hpw2).2.2 s hchunk' u hudrop
      exact absurd hlt (not_lt.mpr hle)

/-- Stability of `insertionSort` on tied latest values: a pair of series
with equal latest value keeps its relative order through the sort. -/
theorem insertionSort_tie_stable :
    ∀ (l : List TimeSeries) (s u : TimeSeries),
      latest_value s = latest_value u → [s, u].Sublist l →
      [s, u].Sublist
        (l.insertionSort (fun a b => latest_value a ≤ latest_value b)) := by
  intro l
  induction l with
  | nil =>
    intro s u _ hsub
    simp at hsub
  | cons a l' ih =>
    intro s u htie hsub
    rw [show (a :: l').insertionSort (fun a b => latest_value a ≤ latest_value b) =
        List.orderedInsert (fun a b => latest_value a ≤ latest_value b) a
          (l'.insertionSort (fun a b => latest_value a ≤ latest_value b)) from rfl]
    cases hsub with
    | cons _ h =>
      refine (ih s u htie h).trans ?_
      rw [List.orderedInsert_eq_take_drop]
      conv_lhs => rw [← List.takeWhile_append_dropWhile
        (fun b => decide ¬ latest_value a ≤ latest_value b)
        (l'.insertionSort (fun a b => latest_value a ≤ latest_value b))]
      exact List.Sublist.append_left (List.sublist_cons_self a _) _
    | cons₂ _ h =>
      -- here the earlier tied series is the list head `a` itself
      have hu : u ∈ l'.insertionSort (fun a b => latest_value a ≤ latest_value b) :=
        (List.perm_insertionSort _ l').mem_iff.mpr
          (h.subset (List.mem_singleton_self u))
      rw [List.orderedInsert_eq_take_drop]
      have hu2 : u ∈ (l'.insertionSort
          (fun a b => latest_value a ≤ latest_value b)).dropWhile
          (fun b => decide ¬ latest_value a ≤ latest_value b) := by
        rw [← List.takeWhile_append_dropWhile
          (fun b => decide ¬ latest_value a ≤ latest_value b)
          (l'.insertionSort (fun a b => latest_value a ≤ latest_value b))] at hu
        rcases List.mem_append.mp hu with h1 | h2
        · exfalso
          have hpu := List.mem_takeWhile_imp h1
          simp only [decide_eq_true_eq] at hpu
          exact hpu (le_of_eq htie)
        · exact h2
      exact (List.Sublist.cons₂ a (List.singleton_sublist.mpr hu2)).trans
        (List.sublist_append_right _ _)

/-- In a duplicate-free list, if the later element of an ordered pair sits
in the length-`k` prefix, so does the earlier one. -/
theorem sublist_pair_take {x y : TimeSeries} :
    ∀ (d : List TimeSeries) (k : ℕ), d.Nodup → [x, y].Sublist d →
      y ∈ d.take k → x ∈ d.take k := by
  intro d
  induction d with
  | nil =>
    intro k _ hsub _
    simp at hsub
  | cons a d' ih =>
    intro k hnd hsub hy
    cases k with
    | zero => simp at hy
    | succ k' =>
      rw [List.take_succ_cons] at hy ⊢
      cases hsub with
      | cons _ h =>
        rcases List.mem_cons.mp hy with h1 | h2
        · exfalso
          have hyd : y ∈ d' := h.subset (by simp)
          rw [h1] at hyd
          exact (List.nodup_cons.mp hnd).1 hyd
        · exact List.mem_cons_of_mem a (ih k' (List.nodup_cons.mp hnd).2 h h2)
      | cons₂ _ h =>
        exact List.mem_cons_self x _

/-- On a tie of latest values, `topk` keeps the later-input series whenever
it keeps the earlier one (the reversal of the stable ascending sort puts
the later series first). -/
theorem topk_tie_kept {series : List TimeSeries} {param : Option ℚ}
    {by_labels : List String} {without : Bool} {s u : TimeSeries}
    (hnd : series.Nodup) (hsub : [s, u].Sublist series)
    (hkey : build_group_key u.labels by_labels without =
      build_group_key s.labels by_labels without)
    (htie : latest_value s = latest_value u)
    (hs : s ∈ aggregate_topk_bottomk series AggOp.Topk param by_labels without) :
    u ∈ aggregate_topk_bottomk series AggOp.Topk param by_labels without := by
  by_cases hk : f64_as_usize (param.getD 5) = 0
  · simp [aggregate_topk_bottomk, hk] at hs
  · obtain ⟨key, hkeymem, hchunk⟩ := (mem_aggregate_topk_bottomk hk).mp hs
    have hsmem : s ∈ group_members series by_labels without key :=
      topk_chunk_subset hchunk
    have hgs : build_group_key s.labels by_labels without = key :=
      group_members_key hsmem
    have hpu : build_group_key u.labels by_labels without = key :=
      hkey.trans hgs
    have hsubm : [s, u].Sublist (group_members series by_labels without key) := by
      have hfil := hsub.filter
        (fun ts => decide (build_group_key ts.labels by_labels without = key))
      rw [show List.filter
          (fun ts => decide (build_group_key ts.labels by_labels without = key))
          [s, u] = [s, u] from by simp [List.filter, hgs, hpu]] at hfil
      exact hfil
    have hsubsorted := insertionSort_tie_stable
      (group_members series by_labels without key) s u htie hsubm
    have hndsorted : ((group_members series by_labels without key).insertionSort
        (fun a b => latest_value a ≤ latest_value b)).Nodup :=
      (List.perm_insertionSort
        (fun a b : TimeSeries => latest_value a ≤ latest_value b)
        (group_members series by_labels without key)).symm.nodup
        (hnd.filter _)
    have hchunk' : s ∈ (((group_members series by_labels without key).insertionSort
        (fun a b => latest_value a ≤ latest_value b)).reverse).take
          (f64_as_usize (param.getD 5)) := by
      simpa [topk_group_chunk] using hchunk
    have hsubrev : [u, s].Sublist
        (((group_members series by_labels without key).insertionSort
          (fun a b => latest_value a ≤ latest_value b)).reverse) := by
      have := hsubsorted.reverse
      simpa using this
    have hndrev := List.nodup_reverse.mpr hndsorted
    have hutake := sublist_pair_take _ _ hndrev hsubrev hchunk'
    exact (mem_aggregate_topk_bottomk hk).mpr
      ⟨key, hkeymem, by simpa [topk_group_chunk] using hutake⟩

/-- On a tie of latest values, `bottomk` keeps the earlier-input series
whenever it keeps the later one (the stable ascending sort keeps input
order among ties). -/
theorem bottomk_tie_kept {series : List TimeSeries} {param : Option ℚ}
    {by_labels : List String} {without : Bool} {s u : TimeSeries}
    (hnd : series.Nodup) (hsub : [s, u].Sublist series)
    (hkey : build_group_key u.labels by_labels without =
      build_group_key s.labels by_labels without)
    (htie : latest_value s = latest_value u)
    (hu : u ∈ aggregate_topk_bottomk series AggOp.Bottomk param by_labels without) :
    s ∈ aggregate_topk_bottomk series AggOp.Bottomk param by_labels without := by
  by_cases hk : f64_as_usize (param.getD 5) = 0
  · simp [aggregate_topk_bottomk, hk] at hu
  · obtain ⟨key, hkeymem, hchunk⟩ := (mem_aggregate_topk_bottomk hk).mp hu
    have humem : u ∈ group_members series by_labels without key :=
      topk_chunk_subset hchunk
    have hgu : build_group_key u.labels by_labels without = key :=
      group_members_key humem
    have hps : build_group_key s.labels by_labels without = key :=
      hkey.symm.trans hgu
    have hsubm : [s, u].Sublist (group_members series by_labels without key) := by
      have hfil := hsub.filter
        (fun ts => decide (build_group_key ts.labels by_labels without = key))
      rw [show List.filter
          (fun ts => decide (build_group_key ts.labels by_labels without = key))
          [s, u] = [s, u] from by simp [List.filter, hps, hgu]] at hfil
      exact hfil
    have hsubsorted := insertionSort_tie_stable
      (group_members series by_labels without key) s u htie hsubm
    have hndsorted : ((group_members series by_labels without key).insertionSort
        (fun a b => latest_value a ≤ latest_value b)).Nodup :=
      (List.perm_insertionSort
        (fun a b : TimeSeries => latest_value a ≤ latest_value b)
        (group_members series by_labels without key)).symm.nodup
        (hnd.filter _)
    have hchunk' : u ∈ ((group_members series by_labels without key).insertionSort
        (fun a b => latest_value a ≤ latest_value b)).take
          (f64_as_usize (param.getD 5)) := by
      simpa [topk_group_chunk] using hchunk
    have hstake := sublist_pair_take _ _ hndsorted hsubsorted hchunk'
    exact (mem_aggregate_topk_bottomk hk).mpr
      ⟨key, hkeymem, by simpa [topk_group_chunk] using hstake⟩

theorem dedup_replicate_succ {α : Type _} [DecidableEq α] (n : ℕ) (a : α) :
    (List.replicate (n + 1) a).dedup = [a] := by
  induction n with
  | zero => simp
  | succ m ih =>
    rw [show List.replicate (m + 1 + 1) a = a :: List.replicate (m + 1) a from rfl,
      List.dedup_cons_of_mem (List.mem_replicate.mpr ⟨Nat.succ_ne_zero m, rfl⟩),
      ih]

/-- With no grouping modifier the result of `topk`/`bottomk` has exactly
`min k n` series. -/
theorem topk_bottomk_length (series : List TimeSeries) (param : Option ℚ)
    (op : AggOp) (hop : op = AggOp.Topk ∨ op = AggOp.Bottomk) :
    (aggregate_topk_bottomk series op param [] false).length =
      min (f64_as_usize (param.getD 5)) series.length := by
  by_cases hk : f64_as_usize (param.getD 5) = 0
  · simp [aggregate_topk_bottomk, hk]
  · cases series with
    | nil => simp [aggregate_topk_bottomk, hk]
    | cons s0 rest =>
      have hkeys : ((s0 :: rest).map (fun ts =>
          build_group_key ts.labels [] false)).dedup = [[]] := by
        rw [show ((s0 :: rest).map (fun ts =>
            build_group_key ts.labels [] false)) =
            List.replicate (rest.length + 1) ([] : Labels) from by
          show List.map (Function.const TimeSeries ([] : Labels)) (s0 :: rest) = _
          rw [List.map_const]
          rfl]
        exact dedup_replicate_succ rest.length []
      have hmem : group_members (s0 :: rest) [] false [] = s0 :: rest := by
        unfold group_members
        rw [show (fun ts : TimeSeries =>
            decide (build_group_key ts.labels [] false = ([] : Labels))) =
            (fun _ => true) from by funext ts; rfl]
        exact List.filter_true _
      simp only [aggregate_topk_bottomk, if_neg hk, hkeys]
      rcases hop with rfl | rfl
      · simp only [List.flatMap_cons, List.flatMap_nil, List.append_nil,
          topk_group_chunk, hmem]
        rw [List.length_take, List.length_reverse,
          (List.perm_insertionSort _ _).length_eq]
      · simp only [List.flatMap_cons, List.flatMap_nil, List.append_nil,
          topk_group_chunk, hmem]
        rw [List.length_take, (List.perm_insertionSort _ _).length_eq]

/-- C4 counterexample: two series tied on their latest value, `x` first in
input and `y` second; `topk(1)` keeps the *later*-input series `y`,
because the code takes `rev().take(k)` of a stable ascending sort —
refuting "ties broken by input order" for `topk`. -/
theorem C4_topk_tie_counterexample :
    aggregate_topk_bottomk [tie_fixture_x, tie_fixture_y] AggOp.Topk (some 1)
      [] false = [tie_fixture_y] ∧
    tie_fixture_x ≠ tie_fixture_y ∧
    latest_value tie_fixture_x = latest_value tie_fixture_y := by
  refine ⟨by with_unfolding_all rfl, by with_unfolding_all decide,
    by with_unfolding_all rfl⟩

/-- C4: `topk`/`bottomk` select whole member series rather than reducing
values (amended): a non-positive `k` yields an empty result, every
returned series is an input series unmodified, anything kept dominates
(for `topk`, is dominated by, for `bottomk`) every same-group series that
is dropped, the result holds exactly `min k n` series (no-grouping case),
ties on the latest value are broken by input order for `bottomk` (an
earlier tied series is kept whenever a later one is) and by *reverse*
input order for `topk` (a later tied series is kept whenever an earlier
one is), and on the `{a:100, b:300, c:200}` fixture `topk(2)` returns
exactly the `b` and `c` series, `bottomk(2)` exactly `a` and `c`, while on
the tied `{x:5, y:5}` fixture `topk(1)` keeps `y` and `bottomk(1)` keeps
`x`. -/
theorem C4_topk_bottomk_selects_series :
    (∀ (series : List TimeSeries) (op : AggOp) (p : ℚ)
        (by_labels : List String) (without : Bool), p ≤ 0 →
      aggregate_topk_bottomk series op (some p) by_labels without = []) ∧
    (∀ (series : List TimeSeries) (op : AggOp) (param : Option ℚ)
        (by_labels : List String) (without : Bool),
      ∀ ts ∈ aggregate_topk_bottomk series op param by_labels without,
        ts ∈ series) ∧
    (∀ (series : List TimeSeries) (param : Option ℚ)
        (by_labels : List String) (without : Bool) (s u : TimeSeries),
      s ∈ aggregate_topk_bottomk series AggOp.Topk param by_labels without →
      u ∈ series →
      build_group_key u.labels by_labels without =
        build_group_key s.labels by_labels without →
      latest_value s < latest_value u →
      u ∈ aggregate_topk_bottomk series AggOp.Topk param by_labels without) ∧
    (∀ (series : List TimeSeries) (param : Option ℚ)
        (by_labels : List String) (without : Bool) (s u : TimeSeries),
      s ∈ aggregate_topk_bottomk series AggOp.Bottomk param by_labels without →
      u ∈ series →
      build_group_key u.labels by_labels without =
        build_group_key s.labels by_labels without →
      latest_value u < latest_value s →
      u ∈ aggregate_topk_bottomk series AggOp.Bottomk param by_labels without) ∧
    (∀ (series : List TimeSeries) (param : Option ℚ) (op : AggOp),
      op = AggOp.Topk ∨ op = AggOp.Bottomk →
      (aggregate_topk_bottomk series op param [] false).length =
        min (f64_as_usize (param.getD 5)) series.length) ∧
    (∀ (series : List TimeSeries) (param : Option ℚ)
        (by_labels : List String) (without : Bool) (s u : TimeSeries),
      series.Nodup → [s, u].Sublist series →
      build_group_key u.labels by_labels without =
        build_group_key s.labels by_labels without →
      latest_value s = latest_value u →
      s ∈ aggregate_topk_bottomk series AggOp.Topk param by_labels without →
      u ∈ aggregate_topk_bottomk series AggOp.Topk param by_labels without) ∧
    (∀ (series : List TimeSeries) (param : Option ℚ)
        (by_labels : List String) (without : Bool) (s u : TimeSeries),
      series.Nodup → [s, u].Sublist series →
      build_group_key u.labels by_labels without =
        build_group_key s.labels by_labels without →
      latest_value s = latest_value u →
      u ∈ aggregate_topk_bottomk series AggOp.Bottomk param by_labels without →
      s ∈ aggregate_topk_bottomk series AggOp.Bottomk param by_labels without) ∧
    aggregate_topk_bottomk [topk_fixture_a, topk_fixture_b, topk_fixture_c]
      AggOp.Topk (some 2) [] false = [topk_fixture_b, topk_fixture_c] ∧
    aggregate_topk_bottomk [topk_fixture_a, topk_fixture_b, topk_fixture_c]
      AggOp.Bottomk (some 2) [] false = [topk_fixture_a, topk_fixture_c] ∧
    aggregate_topk_bottomk [tie_fixture_x, tie_fixture_y]
      AggOp.Topk (some 1) [] false = [tie_fixture_y] ∧
    aggregate_topk_bottomk [tie_fixture_x, tie_fixture_y]
      AggOp.Bottomk (some 1) [] false = [tie_fixture_x] := by
  refine ⟨?_, ?_, ?_, ?_, ?_, ?_, ?_, by with_unfolding_all rfl,
    by with_unfolding_all rfl, by with_unfolding_all rfl,
    by with_unfolding_all rfl⟩
  · intro series op p by_labels without hp
    simp [aggregate_topk_bottomk, f64_as_usize, hp]
  · intro series op param by_labels without ts hts
    by_cases hk : f64_as_usize (param.getD 5) = 0
    · simp [aggregate_topk_bottomk, hk] at hts
    · obtain ⟨key, _, hchunk⟩ := (mem_aggregate_topk_bottomk hk).mp hts
      exact (List.mem_filter.mp (topk_chunk_subset hchunk)).1
  · intro series param by_labels without s u hs hu hkey hlt
    exact topk_dominance hs hu hkey hlt
  · intro series param by_labels without s u hs hu hkey hlt
    exact bottomk_dominance hs hu hkey hlt
  · intro series param op hop
    exact topk_bottomk_length series param op hop
  · intro series param by_labels without s u hnd hsub hkey htie hs
    exact topk_tie_kept hnd hsub hkey htie hs
  · intro series param by_labels without s u hnd hsub hkey htie hu
    exact bottomk_tie_kept hnd hsub hkey htie hu

/-- Witness for C4: `topk` with `k = 0` on an empty input yields the empty
result. -/
theorem C4_topk_bottomk_selects_series_witness :
    aggregate_topk_bottomk [] AggOp.Topk (some 0) [] false = [] :=
  C4_topk_bottomk_selects_series.1 [] AggOp.Topk 0 [] false (le_refl 0)

/-- C3 counterexample: two merged rows for the same (label-set, timestamp)
— as arises when both sub-stores carry the series at one timestamp —
survive grouping as two samples sharing a timestamp, so the claimed
invariant "sorted ascending and no two samples share a timestamp"
(strictly increasing timestamps) fails on this output series. -/
theorem C3_duplicate_timestamp_counterexample :
    group_into_series [(([] : Labels), (1 : ℚ), (5 : ℚ)), ([], 1, 6)] =
      [⟨[], [(1, 5), (1, 6)]⟩] ∧
    ¬ (TimeSeries.mk [] [((1 : ℚ), (5 : ℚ)), (1, 6)]).samples.Pairwise
        (fun a b => a.1 < b.1) := by
  refine ⟨by with_unfolding_all rfl, ?_⟩
  intro h
  exact absurd (List.rel_of_pairwise_cons h (List.mem_singleton.mpr rfl))
    (lt_irrefl 1)

/-- C3 (amended): every series produced by the store query layer's grouping
has its samples sorted ascending by timestamp; when the two sub-stores both
return a row for the same series and timestamp, the duplicates are kept
side by side rather than being collapsed, so timestamps are non-strictly
ascending only. -/
theorem insertionSort_sorted_fst (l : List Sample) :
    (l.insertionSort (fun a b : Sample => a.1 ≤ b.1)).Pairwise
      (fun a b : Sample => a.1 ≤ b.1) := by
  haveI : IsTotal Sample (fun a b : Sample => a.1 ≤ b.1) :=
    ⟨fun a b => le_total _ _⟩
  haveI : IsTrans Sample (fun a b : Sample => a.1 ≤ b.1) :=
    ⟨fun a b c hab hbc => le_trans hab hbc⟩
  exact List.sorted_insertionSort _ _

theorem C3_group_into_series_sorted :
    ∀ (rows : List Row), ∀ ts ∈ group_into_series rows,
      ts.samples.Pairwise (fun a b => a.1 ≤ b.1) := by
  intro rows ts hts
  unfold group_into_series at hts
  rw [List.mem_map] at hts
  obtain ⟨key, _, rfl⟩ := hts
  exact insertionSort_sorted_fst _

/-- Witness for C3 (amended): the duplicate-timestamp series produced by
the counterexample rows is indeed non-strictly sorted. -/
theorem C3_group_into_series_sorted_witness :
    (TimeSeries.mk [] [((1 : ℚ), (5 : ℚ)), (1, 6)]).samples.Pairwise
      (fun a b => a.1 ≤ b.1) :=
  C3_group_into_series_sorted [(([] : Labels), (1 : ℚ), (5 : ℚ)), ([], 1, 6)]
    ⟨[], [(1, 5), (1, 6)]⟩ (by with_unfolding_all decide)

/-- C10: for a single selector fetch, a failing sub-store query behaves
exactly like that sub-store returning no rows — the evaluation still
succeeds with the result built from the other sub-store's rows, and no
fetch outcome whatsoever can surface a store error to the caller. -/
theorem C10_store_failure_degrades :
    ∀ (start_secs end_secs : ℚ) (steps : List ℚ) (align : Bool)
      (e : String) (rows : List Row)
      (gauge_res sum_res : Except String (List Row)),
      query_clickhouse (.error e) (.ok rows) start_secs end_secs steps align =
        query_clickhouse (.ok []) (.ok rows) start_secs end_secs steps align ∧
      query_clickhouse (.ok rows) (.error e) start_secs end_secs steps align =
        query_clickhouse (.ok rows) (.ok []) start_secs end_secs steps align ∧
      ∃ out, query_clickhouse gauge_res sum_res start_secs end_secs steps align =
        Except.ok out := by
  intro start_secs end_secs steps align e rows gauge_res sum_res
  refine ⟨rfl, rfl, ?_⟩
  unfold query_clickhouse
  by_cases h : align = true
  · exact ⟨_, by rw [if_pos h]⟩
  · exact ⟨_, by rw [if_neg h]⟩

theorem mem_rows_for {rows : List Row} {key : Labels} {t v : ℚ} :
    (t, v) ∈ rows_for rows key ↔ (key, t, v) ∈ rows := by
  unfold rows_for
  rw [List.mem_map]
  constructor
  · rintro ⟨r, hr, heq⟩
    obtain ⟨hrmem, hrkey⟩ := List.mem_filter.mp hr
    have hk : r.1 = key := by simpa using hrkey
    have : r = (key, t, v) := by
      obtain ⟨r1, r2, r3⟩ := r
      simp only [Prod.mk.injEq] at heq ⊢
      exact ⟨hk, heq.1, heq.2⟩
    rwa [this] at hrmem
  · intro h
    exact ⟨(key, t, v), List.mem_filter.mpr ⟨h, by simp⟩, rfl⟩

theorem mem_group_keys {rows : List Row} {key : Labels} :
    key ∈ (rows.map (fun r => r.1)).dedup ↔ ∃ r ∈ rows, r.1 = key := by
  rw [List.mem_dedup, List.mem_map]

/-- Running `find?` over the reverse of a non-empty list all of whose elements
satisfy the predicate returns the last element. -/
theorem find_reverse_eq_getLast {l : List Sample} (hne : l ≠ [])
    {p : Sample → Bool} (hall : ∀ x ∈ l, p x = true) :
    l.reverse.find? p = some (l.getLast hne) := by
  conv_lhs => rw [← List.dropLast_append_getLast hne]
  rw [List.reverse_append]
  simp only [List.reverse_singleton, List.singleton_append]
  exact List.find?_cons_of_pos _ (hall _ (List.getLast_mem hne))

/-- In a list sorted ascending by timestamp, the last element's timestamp
is maximal. -/
theorem sorted_le_getLast {l : List Sample} (hne : l ≠ [])
    (hsort : l.Pairwise (fun a b : Sample => a.1 ≤ b.1)) :
    ∀ x ∈ l, x.1 ≤ (l.getLast hne).1 := by
  intro x hx
  have hdecomp := List.dropLast_append_getLast hne
  rw [← hdecomp] at hsort hx
  rcases List.mem_append.mp hx with h1 | h2
  · exact (List.pairwise_append.mp hsort).2.2 x h1 _ (List.mem_singleton.mpr rfl)
  · rw [List.mem_singleton.mp h2]

theorem fetch_window_append (g s : List Row) (a b : ℚ) :
    fetch_window g a b ++ fetch_window s a b = fetch_window (g ++ s) a b := by
  unfold fetch_window
  rw [List.filter_append]

theorem mem_fetch_window {store : List Row} {a b : ℚ} {r : Row} :
    r ∈ fetch_window store a b ↔
      r ∈ store ∧ (qtrunc a : ℚ) ≤ r.2.1 ∧ r.2.1 ≤ (qtrunc b : ℚ) := by
  unfold fetch_window
  rw [List.mem_filter]
  simp

/-- C2 (amended): an instant query at `T` with look-back `L`, where `T`
and `T - L` are whole seconds — so the SQL's `as i64` bound truncation is
the identity and the fetch window is exactly `[T-L, T]` — yields, per
surviving series, exactly one point at `T` whose value is that of a
maximal-timestamp sample of the series within that window; a label set
with no sample in the window does not occur in the result at all. -/
theorem C2_instant_query_last_sample :
    ∀ (gauge_store sum_store : List Row) (T L : ℚ), 0 ≤ L →
      (qtrunc (T - L) : ℚ) = T - L →
      (qtrunc T : ℚ) = T →
      (∀ s ∈ evaluate_instant_selector gauge_store sum_store T L,
        ∃ t0 v, s.samples = [(T, v)] ∧
          (s.labels, t0, v) ∈ fetch_window (gauge_store ++ sum_store) (T - L) T ∧
          ∀ r ∈ fetch_window (gauge_store ++ sum_store) (T - L) T,
            r.1 = s.labels → r.2.1 ≤ t0) ∧
      (∀ ℓ : Labels,
        (∀ r ∈ fetch_window (gauge_store ++ sum_store) (T - L) T, r.1 ≠ ℓ) →
        ∀ s ∈ evaluate_instant_selector gauge_store sum_store T L,
          s.labels ≠ ℓ) := by
  intro gauge_store sum_store T L hL hTL hT
  have hsel : evaluate_instant_selector gauge_store sum_store T L =
      step_align_series
        (group_into_series (fetch_window (gauge_store ++ sum_store) (T - L) T))
        [T] (T - (T - L)) := by
    unfold evaluate_instant_selector query_clickhouse
    dsimp only
    rw [fetch_window_append, if_pos (rfl : (true : Bool) = true)]
  -- facts about any aligned output series
  have hmain : ∀ s ∈ evaluate_instant_selector gauge_store sum_store T L,
      (∃ t0 v, s.samples = [(T, v)] ∧
        (s.labels, t0, v) ∈ fetch_window (gauge_store ++ sum_store) (T - L) T ∧
        ∀ r ∈ fetch_window (gauge_store ++ sum_store) (T - L) T,
          r.1 = s.labels → r.2.1 ≤ t0) ∧
      (∃ r ∈ fetch_window (gauge_store ++ sum_store) (T - L) T,
        r.1 = s.labels) := by
    intro s hs
    rw [hsel] at hs
    unfold step_align_series at hs
    rw [List.mem_map] at hs
    obtain ⟨ts, hts, rfl⟩ := hs
    unfold group_into_series at hts
    rw [List.mem_map] at hts
    obtain ⟨key, hkey, rfl⟩ := hts
    dsimp only
    obtain ⟨r0, hr0mem, hr0key⟩ := mem_group_keys.mp hkey
    -- the group is non-empty
    have hr0' : (r0.2.1, r0.2.2) ∈
        rows_for (fetch_window (gauge_store ++ sum_store) (T - L) T) key := by
      apply mem_rows_for.mpr
      rwa [← hr0key]
    have hperm := List.perm_insertionSort (fun a b : Sample => a.1 ≤ b.1)
      (rows_for (fetch_window (gauge_store ++ sum_store) (T - L) T) key)
    have hne : (rows_for (fetch_window (gauge_store ++ sum_store) (T - L) T)
        key).insertionSort (fun a b : Sample => a.1 ≤ b.1) ≠ [] := by
      intro hcontra
      rw [hcontra] at hperm
      rw [List.perm_comm, List.perm_nil] at hperm
      rw [hperm] at hr0'
      exact absurd hr0' (List.not_mem_nil _)
    set sorted := (rows_for (fetch_window (gauge_store ++ sum_store) (T - L) T)
        key).insertionSort (fun a b : Sample => a.1 ≤ b.1) with hsorteddef
    -- every sorted sample lies inside the fetch window
    have hbounds : ∀ x ∈ sorted, T - L ≤ x.1 ∧ x.1 ≤ T := by
      intro x hx
      have hxrows := hperm.mem_iff.mp hx
      have hxwin : (key, x.1, x.2) ∈
          fetch_window (gauge_store ++ sum_store) (T - L) T :=
        mem_rows_for.mp (by simpa using hxrows)
      have := (mem_fetch_window.mp hxwin).2
      rw [hTL, hT] at this
      simpa using this
    -- the tolerance covers the whole window
    have hhalf5 : (5 : ℚ) ≤ max (T - (T - L)) 5 := le_max_right _ _
    have hhalfL : L ≤ max (T - (T - L)) 5 := by
      rw [show T - (T - L) = L from by ring]
      exact le_max_left _ _
    have hall : ∀ x ∈ sorted,
        (decide (x.1 ≤ T + max (T - (T - L)) 5) &&
         decide (T - max (T - (T - L)) 5 ≤ x.1)) = true := by
      intro x hx
      obtain ⟨hx1, hx2⟩ := hbounds x hx
      simp only [Bool.and_eq_true, decide_eq_true_eq]
      constructor
      · linarith
      · linarith
    have hfind := find_reverse_eq_getLast hne hall
    have hsortedpw : sorted.Pairwise (fun a b : Sample => a.1 ≤ b.1) :=
      insertionSort_sorted_fst _
    have hlast_mem : sorted.getLast hne ∈ sorted := List.getLast_mem hne
    have hlast_win : (key, (sorted.getLast hne).1, (sorted.getLast hne).2) ∈
        fetch_window (gauge_store ++ sum_store) (T - L) T := by
      apply mem_rows_for.mp
      have := hperm.mem_iff.mp hlast_mem
      simpa using this
    constructor
    · refine ⟨(sorted.getLast hne).1, (sorted.getLast hne).2, ?_, hlast_win, ?_⟩
      · dsimp only
        simp only [List.filterMap_cons, List.filterMap_nil, hfind,
          Option.map_some']
      · intro r hrwin hrkey
        have hrrows : (r.2.1, r.2.2) ∈
            rows_for (fetch_window (gauge_store ++ sum_store) (T - L) T) key := by
          apply mem_rows_for.mpr
          rwa [← hrkey]
        have hrsorted : (r.2.1, r.2.2) ∈ sorted := hperm.mem_iff.mpr hrrows
        exact sorted_le_getLast hne hsortedpw _ hrsorted
    · exact ⟨(key, (sorted.getLast hne).1, (sorted.getLast hne).2), hlast_win, rfl⟩
  constructor
  · intro s hs
    exact (hmain s hs).1
  · intro ℓ hno s hs hlab
    obtain ⟨r, hrwin, hrkey⟩ := (hmain s hs).2
    exact hno r hrwin (hrkey.trans hlab)

/-- Witness for C2: a one-row store probed at `T = 10`, `L = 5`. -/
theorem C2_instant_query_last_sample_witness :
    (∀ s ∈ evaluate_instant_selector [([("m", "x")], 8, 42)] [] 10 5,
      ∃ t0 v, s.samples = [(10, v)] ∧
        (s.labels, t0, v) ∈
          fetch_window ([([("m", "x")], 8, 42)] ++ []) (10 - 5) 10 ∧
        ∀ r ∈ fetch_window ([([("m", "x")], 8, 42)] ++ []) (10 - 5) 10,
          r.1 = s.labels → r.2.1 ≤ t0) ∧
    (∀ ℓ : Labels,
      (∀ r ∈ fetch_window ([([("m", "x")], 8, 42)] ++ []) (10 - 5) 10,
        r.1 ≠ ℓ) →
      ∀ s ∈ evaluate_instant_selector [([("m", "x")], 8, 42)] [] 10 5,
        s.labels ≠ ℓ) :=
  C2_instant_query_last_sample [([("m", "x")], 8, 42)] [] 10 5
    (by norm_num) (by with_unfolding_all rfl) (by with_unfolding_all rfl)

/-- C2 counterexample: at the fractional query time `T = 21/2` with
`L = 5`, the SQL bound truncation fetches only `[5, 10]`, so the sample at
`t = 41/4 = 10.25` — which lies inside the claim's window
`[T-L, T] = [5.5, 10.5]` and is the newest one there — is invisible: the
program returns the older sample's value `42` instead of `7`, falsifying
"the single output point at `T` is the value of the last sample with
timestamp ≤ `T` and ≥ `T-L`". -/
theorem C2_truncation_counterexample :
    evaluate_instant_selector
      [([("m", "x")], 41 / 4, 7), ([("m", "x")], 8, 42)] [] (21 / 2) 5 =
      [⟨[("m", "x")], [(21 / 2, 42)]⟩] ∧
    ((21 : ℚ) / 2 - 5 ≤ 41 / 4 ∧ (41 : ℚ) / 4 ≤ 21 / 2) ∧
    (8 : ℚ) < 41 / 4 ∧ (42 : ℚ) ≠ 7 := by
  refine ⟨by with_unfolding_all rfl, by norm_num, by norm_num, by norm_num⟩

theorem le_leb_refl (a : Le) : le_leb a a = true := by
  cases a <;> simp [le_leb]

theorem le_sorted_getLast {l : List (Le × ℚ)} (hne : l ≠ [])
    (hsort : l.Pairwise (fun a b => le_leb a.1 b.1 = true)) :
    ∀ x ∈ l, le_leb x.1 (l.getLast hne).1 = true := by
  intro x hx
  have hdecomp := List.dropLast_append_getLast hne
  rw [← hdecomp] at hsort hx
  rcases List.mem_append.mp hx with h1 | h2
  · exact (List.pairwise_append.mp hsort).2.2 x h1 _ (List.mem_singleton.mpr rfl)
  · rw [List.mem_singleton.mp h2]
    exact le_leb_refl _

/-- With exactly one `+Inf` bucket, the last bucket after the ascending
sort is that `+Inf` bucket, so the code's total (last sorted count) is the
spec's total (the `+Inf` bucket's count). -/
theorem sorted_last_eq_inf_count {bs : List (Le × ℚ)}
    (h1 : bs.countP (fun b => decide (b.1 = Le.inf)) = 1) :
    (((bs.insertionSort (fun a b => le_leb a.1 b.1 = true)).getLast?).map
      Prod.snd).getD 0 =
      ((bs.filter (fun b => decide (b.1 = Le.inf))).map Prod.snd).headD 0 := by
  haveI : IsTotal (Le × ℚ) (fun a b => le_leb a.1 b.1 = true) := by
    constructor
    intro a b
    rcases a with ⟨la, ca⟩
    rcases b with ⟨lb, cb⟩
    cases la <;> cases lb <;> simp [le_leb] <;> exact le_total _ _
  haveI : IsTrans (Le × ℚ) (fun a b => le_leb a.1 b.1 = true) := by
    constructor
    intro a b c hab hbc
    rcases a with ⟨la, ca⟩
    rcases b with ⟨lb, cb⟩
    rcases c with ⟨lc, cc⟩
    cases la <;> cases lb <;> cases lc <;>
      simp [le_leb] at hab hbc ⊢ <;> exact le_trans hab hbc
  have hperm := List.perm_insertionSort
    (fun a b : Le × ℚ => le_leb a.1 b.1 = true) bs
  have hcnt : (bs.insertionSort (fun a b => le_leb a.1 b.1 = true)).countP
      (fun b => decide (b.1 = Le.inf)) = 1 := by
    rw [hperm.countP_eq]
    exact h1
  have hlen : 1 ≤ (bs.insertionSort (fun a b => le_leb a.1 b.1 = true)).length := by
    calc 1 = _ := hcnt.symm
      _ ≤ _ := List.countP_le_length _
  have hne : bs.insertionSort (fun a b => le_leb a.1 b.1 = true) ≠ [] := by
    intro hcontra
    rw [hcontra] at hlen
    simp at hlen
  have hsort : (bs.insertionSort (fun a b => le_leb a.1 b.1 = true)).Pairwise
      (fun a b => le_leb a.1 b.1 = true) := List.sorted_insertionSort _ _
  obtain ⟨binf, hbinfmem, hbinf⟩ :=
    List.countP_pos_iff.mp (by rw [hcnt]; norm_num)
  have hbinf' : binf.1 = Le.inf := by simpa using hbinf
  have hxinf : ((bs.insertionSort (fun a b => le_leb a.1 b.1 = true)).getLast
      hne).1 = Le.inf := by
    have hrel := le_sorted_getLast hne hsort binf hbinfmem
    rw [hbinf'] at hrel
    cases hx : ((bs.insertionSort (fun a b => le_leb a.1 b.1 = true)).getLast
        hne).1 with
    | val q => rw [hx] at hrel; simp [le_leb] at hrel
    | inf => rfl
  have hfiltlen : ((bs.insertionSort (fun a b => le_leb a.1 b.1 = true)).filter
      (fun b => decide (b.1 = Le.inf))).length = 1 := by
    rw [← List.countP_eq_length_filter]
    exact hcnt
  obtain ⟨y, hy⟩ := List.length_eq_one.mp hfiltlen
  have hxmem : (bs.insertionSort (fun a b => le_leb a.1 b.1 = true)).getLast hne ∈
      (bs.insertionSort (fun a b => le_leb a.1 b.1 = true)).filter
        (fun b => decide (b.1 = Le.inf)) :=
    List.mem_filter.mpr ⟨List.getLast_mem hne, by simp [hxinf]⟩
  have hxy : y = (bs.insertionSort (fun a b => le_leb a.1 b.1 = true)).getLast
      hne := by
    rw [hy] at hxmem
    exact (List.mem_singleton.mp hxmem).symm
  have hfiltbs : bs.filter (fun b => decide (b.1 = Le.inf)) =
      [(bs.insertionSort (fun a b => le_leb a.1 b.1 = true)).getLast hne] := by
    have hpf := hperm.filter (fun b => decide (b.1 = Le.inf))
    rw [hy, hxy] at hpf
    exact List.perm_singleton.mp hpf.symm
  rw [hfiltbs, List.getLast?_eq_getLast _ hne]
  simp

/-- C9: `histogram_quantile` groups bucket series by their labels with
`le` and `__name__` removed, sorts each group's `(le, cumulative_count)`
pairs ascending by `le` (with `"+Inf"` parsing to `+∞`), walks to the
first bucket whose cumulative count reaches `target = φ·total` and
linearly interpolates the boundary there, dropping every group with total
count `0` — where, for every input whose groups each contain exactly one
`+Inf` bucket, the total is that `+Inf` bucket's count. -/
theorem C9_histogram_quantile_correct :
    ∀ (phi : ℚ) (series : List TimeSeries),
      (∀ g ∈ histogram_groups series,
        g.2.countP (fun b => decide (b.1 = Le.inf)) = 1) →
      compute_histogram_quantile phi series =
        histogram_quantile_spec phi series := by
  intro phi series hinf
  unfold compute_histogram_quantile histogram_quantile_spec
  apply List.filterMap_congr
  intro g hg
  dsimp only
  rw [sorted_last_eq_inf_count (hinf g hg)]

/-- Witness for C9: a two-bucket histogram (`le="1"` count 5,
`le="+Inf"` count 10) at `φ = 1/2`. -/
theorem C9_histogram_quantile_correct_witness :
    compute_histogram_quantile (1 / 2)
      [⟨[("__name__", "h_bucket"), ("le", "1")], [(10, 5)]⟩,
       ⟨[("__name__", "h_bucket"), ("le", "+Inf")], [(10, 10)]⟩] =
      histogram_quantile_spec (1 / 2)
        [⟨[("__name__", "h_bucket"), ("le", "1")], [(10, 5)]⟩,
         ⟨[("__name__", "h_bucket"), ("le", "+Inf")], [(10, 10)]⟩] :=
  C9_histogram_quantile_correct (1 / 2)
    [⟨[("__name__", "h_bucket"), ("le", "1")], [(10, 5)]⟩,
     ⟨[("__name__", "h_bucket"), ("le", "+Inf")], [(10, 10)]⟩]
    (by with_unfolding_all decide)

end QueryApi
